import Mathlib

/-!
Verification of the change-detection core of `tdaemon.py` (a polling test
daemon).  The Python source is shallowly embedded below: the ignore-pattern
matcher (`fnmatch.translate` of each rule, joined by `|`, evaluated with
`re.search`), the directory walker with its FULL and quick (PARTIAL) modes,
the snapshot diff, the hot-file cache update, the main-loop tick, and the
startup configuration check.  Python dicts are embedded as association lists
with unique keys; `os.walk` is embedded as a recursion over an inductive
directory tree.
-/

namespace TDaemon

/-- One step of glob matching against a whole string, with explicit fuel so
that the function is structurally recursive and kernel-reducible.  This embeds
the regex produced by Python 2's `fnmatch.translate`: `*` becomes `.*` (which
crosses `/`), `?` becomes `.` (any single character), and every other
character is `re.escape`d, hence literal; the trailing `\Z` of the translated
regex is reflected by requiring the glob to consume the string completely.
Bracket classes (`[seq]`) are not modelled; no default rule and no rule used
in any theorem below contains one.  Fuel `g.length + s.length + 1` always
suffices since every step shortens `g` or `s`. -/
def globMatchFuel : Nat → List Char → List Char → Bool
  | 0, _, _ => false
  | _ + 1, [], s => s.isEmpty
  | fuel + 1, c :: g, s =>
    if c = '*' then
      globMatchFuel fuel g s ||
        (match s with
         | [] => false
         | _ :: s2 => globMatchFuel fuel (c :: g) s2)
    else
      match s with
      | [] => false
      | c2 :: s2 => (c == '?' || c == c2) && globMatchFuel fuel g s2

/-- `globMatch g s` is true iff the translated glob `g` matches the entire
string `s` (the `\Z`-anchored regex body of one alternative). -/
def globMatch (g s : List Char) : Bool :=
  globMatchFuel (g.length + s.length + 1) g s

/-- `re.search` of one `\Z`-anchored alternative: the regex body may start at
any position but must end at the end of the string, so the alternative fires
iff the glob matches some suffix of the path. -/
def searchMatch (g : List Char) : List Char → Bool
  | [] => globMatch g []
  | c :: s => globMatch g (c :: s) || searchMatch g s

/-- The built-in `IGNORE` tuple of `tdaemon.py` (lines 25-28). -/
def IGNORE : List String :=
  [".bzr", ".git", ".hg", ".darcs", ".svn", "*.pyc", "*.pyo", "*.swp"]

/-- The rule list assembled in `Watcher.__init__` (lines 83-96): the built-in
`IGNORE` patterns, then the command-line patterns (already split on `,`),
then the lines of `.gitignore` (already split on newlines); `filter(None, …)`
drops empty strings and `set(…)` deduplicates.  The compiled regex is the
`|`-disjunction of the `fnmatch.translate` of each surviving rule, so only
the set of rules matters; `dedup` stands in for `set`. -/
def compileRules (cmdIgnore gitignoreLines : List String) : List String :=
  ((IGNORE ++ cmdIgnore ++ gitignoreLines).filter (fun r => r != "")).dedup

/-- `self.ignore.search(p) is not None`: the compiled pattern
`(t1\Z|t2\Z|…)` search-matches `p` iff some alternative fires on `p`. -/
def ignoresPath (rules : List String) (p : String) : Bool :=
  rules.any (fun r => searchMatch r.toList p.toList)

/-- The denylist of `escapearg` (line 58 of `tdaemon.py`):
`'#&;`|*?~<>^()[]{}$\\'`. -/
def special_chars : String := "#&;`|*?~<>^()[]\x7b\x7d$\\"

/-- Python's `args.replace(char, '')`: delete every occurrence of `c`. -/
def removeChar (s : String) (c : Char) : String :=
  (s.toList.filter (fun x => x != c)).asString

/-- `escapearg` (lines 55-61): for each character of `special_chars` in turn,
remove all its occurrences from `args`. -/
def escapearg (args : String) : String :=
  special_chars.toList.foldl removeChar args

mutual
/-- A node of the directory tree seen by `os.walk`: a regular file with its
mtime, or a directory with its entries.  Names are single path components
(they contain no `/`). -/
inductive FSTree where
  | file (name : String) (mtime : Nat) : FSTree
  | dir (name : String) (children : FSForest) : FSTree
/-- The entry list of one directory (a mutual inductive rather than
`List FSTree`, so that the walk below is structurally recursive). -/
inductive FSForest where
  | nil : FSForest
  | cons (t : FSTree) (rest : FSForest) : FSForest
end

/-- Forest from an entry list. -/
def FSForest.ofList : List FSTree → FSForest
  | [] => FSForest.nil
  | t :: rest => FSForest.cons t (FSForest.ofList rest)

/-- Forest concatenation (used to talk about an entry at any position). -/
def FSForest.append : FSForest → FSForest → FSForest
  | FSForest.nil, g => g
  | FSForest.cons t rest, g => FSForest.cons t (FSForest.append rest g)

/-- `os.path.join(root, name)` for a non-empty normalized `root`. -/
def joinPath (root name : String) : String := root ++ "/" ++ name

/-- A snapshot: the dict `file_list` mapping path to mtime, embedded as an
association list with unique keys (dict semantics is recovered through
`List.lookup`). -/
abbrev Snapshot := List (String × Nat)

mutual
/-- The FULL walk of `Watcher.walk` (lines 192-218) at a single entry.  A
subdirectory is pruned (not descended into) when the compiled pattern
search-matches its joined path `os.path.join(root, dir)` (line 205); a file
is recorded with its mtime when the compiled pattern does NOT search-match
its bare name (line 214, note: the name, not the full path). -/
def walkTree (rules : List String) (root : String) : FSTree → Snapshot
  | FSTree.file n m =>
    if ignoresPath rules n then [] else [(joinPath root n, m)]
  | FSTree.dir n cs =>
    if ignoresPath rules (joinPath root n) then []
    else walkForest rules (joinPath root n) cs
/-- The FULL walk over the entries of one directory. -/
def walkForest (rules : List String) (root : String) : FSForest → Snapshot
  | FSForest.nil => []
  | FSForest.cons t rest => walkTree rules root t ++ walkForest rules root rest
end

/-- `diff_list` (lines 226-235): iterate over `list1`; a key present in both
dicts with different values is `changed`, a key absent from `list2` is `new`. -/
def diff_list : Snapshot → Snapshot → List String × List String
  | [], _ => ([], [])
  | (key, value) :: rest, list2 =>
    match list2.lookup key with
    | some v2 =>
      if v2 ≠ value then
        (key :: (diff_list rest list2).1, (diff_list rest list2).2)
      else diff_list rest list2
    | none => ((diff_list rest list2).1, key :: (diff_list rest list2).2)

/-- Python dict assignment `d[k] = v`: replace in place if present, else
append. -/
def dictSet : Snapshot → String → Nat → Snapshot
  | [], k, v => [(k, v)]
  | (k2, v2) :: rest, k, v =>
    if k2 = k then (k, v) :: rest else (k2, v2) :: dictSet rest k v

/-- Python dict `d.pop(k, None)`: drop the entry with key `k`, if any. -/
def dictPop : Snapshot → String → Snapshot
  | [], _ => []
  | (k2, v2) :: rest, k =>
    if k2 = k then rest else (k2, v2) :: dictPop rest k

/-- The quick (PARTIAL) branch of `Watcher.walk` (lines 184-191): start from a
copy of the previous snapshot; for each path tracked in the hot cache, record
its current mtime when it is still a regular file, and drop it otherwise.
The filesystem is abstracted by the two oracles `isfile` and `getmtime`;
`hot` is the key list of the `hot_top` dict. -/
def quickWalk (isfile : String → Bool) (getmtime : String → Nat)
    (prev : Snapshot) (hot : List String) : Snapshot :=
  hot.foldl
    (fun fl filename =>
      if isfile filename then dictSet fl filename (getmtime filename)
      else dictPop fl filename)
    prev

/-- `self.hot_top_limit = 20` (line 101). -/
def hot_top_limit : Nat := 20

/-- `self.hot_top[filename] += 1` on a `defaultdict(int)` (line 262): bump the
count in place when the key is present, else insert it with count 1. -/
def hotBump : List (String × Nat) → String → List (String × Nat)
  | [], fn => [(fn, 1)]
  | (k, c) :: rest, fn =>
    if k = fn then (k, c + 1) :: rest else (k, c) :: hotBump rest fn

/-- The increment loop `for filename in changed + new` (lines 261-262). -/
def hotIncrement (hot : List (String × Nat)) (files : List String) :
    List (String × Nat) :=
  files.foldl hotBump hot

/-- The order handed to `sorted(…, key=lambda x: x[1], reverse=True)`:
descending by count. -/
def hotRel (a b : String × Nat) : Prop := b.2 ≤ a.2

instance : DecidableRel hotRel := fun a b => Nat.decLe b.2 a.2

instance : IsTotal (String × Nat) hotRel :=
  ⟨fun a b => Nat.le_total b.2 a.2⟩

instance : IsTrans (String × Nat) hotRel :=
  ⟨fun _ _ _ h1 h2 => Nat.le_trans h2 h1⟩

/-- The hot-cache update of `Watcher.loop` (lines 261-267): bump the count of
every changed or new path, then keep only the first `hot_top_limit` entries of
the list sorted by descending count.  Python's `sorted` is stable and a stable
sort result is unique, so the stable `List.insertionSort` embeds it exactly. -/
def hotUpdate (hot : List (String × Nat)) (files : List String) :
    List (String × Nat) :=
  ((hotIncrement hot files).insertionSort hotRel).take hot_top_limit

/-- The mutable state of `Watcher.loop`: the stored snapshot and the hot
cache. -/
structure LoopState where
  file_list : Snapshot
  hot_top : List (String × Nat)
deriving DecidableEq, Repr

/-- Python `d1 == d2` on dicts: same key set and same value at every key,
evaluated on association lists through `lookup` in both directions. -/
def dictEqSnap (l1 l2 : Snapshot) : Bool :=
  l1.all (fun kv => l2.lookup kv.1 == some kv.2) &&
    l2.all (fun kv => l1.lookup kv.1 == some kv.2)

/-- One iteration of `Watcher.loop` (lines 250-271) after `new_file_list` has
been produced by `walk`: when `new_file_list != self.file_list` the diff is
computed, the hot cache is updated, the tests are run (the returned Bool) and
the snapshot is replaced; otherwise nothing happens. -/
def tick (st : LoopState) (new_file_list : Snapshot) : LoopState × Bool :=
  if dictEqSnap new_file_list st.file_list then (st, false)
  else
    let d := diff_list new_file_list st.file_list
    (⟨new_file_list, hotUpdate st.hot_top (d.1 ++ d.2)⟩, true)

/-- `IMPLEMENTED_TEST_PROGRAMS` (lines 29-31). -/
def IMPLEMENTED_TEST_PROGRAMS : List String :=
  ["nose", "nosetests", "django", "py", "symfony", "jelix"]

/-- Outcome of running `main`: either the polling loop is entered (after
`print "Ready to watch file changes..."`) or the process exits with the given
code. -/
inductive MainOutcome where
  | enteredLoop
  | exits (code : Nat)
deriving DecidableEq, Repr

/-- The startup path of `main` (lines 305-317) through `Watcher.__init__`
(lines 70-112), with the environment abstracted to flags.  In order:
`check_configuration` (lines 115-128) raises `InvalidFilePath` when the root
is not a directory, `InvalidTestProgram` when the program is unknown, and
`CancelDueToUserRequest` when custom args are given and the user declines —
all three are uncaught by `main`'s `except (KeyboardInterrupt, SystemExit)`,
so the interpreter terminates with exit code 1.  `check_dependencies`
(lines 130-146) calls `sys.exit(message)`, whose `SystemExit` IS caught by
`main`, which then returns normally (exit code 0).  Only when all checks pass
does `main` print the ready message and call `watcher.loop()`. -/
def tdaemon_main (isdir : Bool) (test_program : String) (custom_args : String)
    (userAgrees : Bool) (deps_ok : Bool) : MainOutcome :=
  if ¬ isdir then MainOutcome.exits 1
  else if test_program ∉ IMPLEMENTED_TEST_PROGRAMS then MainOutcome.exits 1
  else if custom_args ≠ "" ∧ ¬ userAgrees then MainOutcome.exits 1
  else if ¬ deps_ok then MainOutcome.exits 0
  else MainOutcome.enteredLoop


theorem string_eq_of_toList_eq {s t : String} (h : s.toList = t.toList) :
    s = t := by
  cases s with
  | mk d1 =>
    cases t with
    | mk d2 => exact congrArg String.mk (by simpa [String.toList] using h)

theorem foldl_removeChar_toList :
    ∀ (cs : List Char) (s : String),
      (cs.foldl removeChar s).toList
        = s.toList.filter (fun c => !(cs.contains c))
  | [], s => by simp
  | c :: cs, s => by
    have hstep : (removeChar s c).toList = s.toList.filter (fun x => x != c) :=
      rfl
    calc ((c :: cs).foldl removeChar s).toList
        = (cs.foldl removeChar (removeChar s c)).toList := rfl
      _ = (removeChar s c).toList.filter (fun x => !(cs.contains x)) :=
          foldl_removeChar_toList cs (removeChar s c)
      _ = s.toList.filter (fun x => !((c :: cs).contains x)) := by
          rw [hstep, List.filter_filter]
          apply List.filter_congr
          intro a _
          by_cases hac : a = c
          · subst hac
            simp [List.contains_cons]
          · simp [List.contains_cons, hac]

theorem escapearg_eq_filter (s : String) :
    escapearg s
      = (s.toList.filter (fun c => !(special_chars.toList.contains c))).asString :=
  string_eq_of_toList_eq (foldl_removeChar_toList special_chars.toList s)

theorem ignoresPath_compileRules_iff (cmd git : List String) (p : String) :
    ignoresPath (compileRules cmd git) p = true ↔
      ∃ r, r ∈ IGNORE ++ cmd ++ git ∧ r ≠ "" ∧
        searchMatch r.toList p.toList = true := by
  unfold ignoresPath compileRules
  rw [List.any_eq_true]
  constructor
  · rintro ⟨r, hr, hs⟩
    rw [List.mem_dedup, List.mem_filter] at hr
    exact ⟨r, hr.1, by simpa using hr.2, hs⟩
  · rintro ⟨r, hr, hne, hs⟩
    refine ⟨r, ?_, hs⟩
    rw [List.mem_dedup, List.mem_filter]
    exact ⟨hr, by simpa using hne⟩

theorem globMatch_slash_head (g s : List Char) (hs : '/' ∉ s) :
    globMatch ('/' :: g) s = false := by
  cases s with
  | nil => rfl
  | cons c2 s2 =>
    have hc : ('/' : Char) ≠ c2 := by
      intro e
      exact hs (e ▸ List.mem_cons_self c2 s2)
    simp [globMatch, globMatchFuel, hc]

theorem searchMatch_slash_head (g : List Char) :
    ∀ s : List Char, '/' ∉ s → searchMatch ('/' :: g) s = false
  | [], hs => by simp [searchMatch, globMatch_slash_head g [] hs]
  | c :: s, hs => by
    have htail : '/' ∉ s := fun h => hs (List.mem_cons_of_mem c h)
    simp [searchMatch, globMatch_slash_head g (c :: s) hs,
      searchMatch_slash_head g s htail]

/-- Claim C1 (amended): under the compiled matcher a path is ignored iff some
alternative — compiled from a non-empty rule of the built-ins, the
command-line patterns or the `.gitignore` lines — fires on it.  Negation is
not implemented: a rule prefixed with `!` is compiled literally like any
other rule, so a path on which a `!`-rule's alternative fires is ignored,
not re-included. -/
theorem ignored_iff_some_alternative_fires (cmd git : List String)
    (p : String) :
    ignoresPath (compileRules cmd git) p = true ↔
      ∃ r, r ∈ IGNORE ++ cmd ++ git ∧ r ≠ "" ∧
        searchMatch r.toList p.toList = true :=
  ignoresPath_compileRules_iff cmd git p

theorem ignored_iff_some_alternative_fires_inst :
    ignoresPath (compileRules ["!a"] []) "!a" = true :=
  (ignored_iff_some_alternative_fires ["!a"] [] "!a").mpr
    ⟨"!a", by decide, by decide, by decide⟩

/-- Claim C1 counterexample: with the rule set containing `!a`, the path
`!a` matches the alternative compiled from the `!`-prefixed rule, yet the
compiled matcher reports it as ignored — the claim says a path matching a
negated alternative must be included. -/
theorem negated_rule_path_still_ignored :
    searchMatch "!a".toList "!a".toList = true ∧
    ignoresPath (compileRules ["!a"] []) "!a" = true := by decide

/-- Claim C2: in a FULL scan, a directory entry whose joined path
search-matches the compiled ignore pattern is pruned before descending: the
walk of any forest containing it (at any position) equals the walk of the
forest with that whole subtree removed, whatever the subtree contains — so no
file beneath it can appear in the snapshot, regardless of any other rule. -/
theorem walk_prunes_ignored_dir (rules : List String) (root : String)
    (f1 f2 : FSForest) (n : String) (cs : FSForest)
    (h : ignoresPath rules (joinPath root n) = true) :
    walkForest rules root
        (FSForest.append f1 (FSForest.cons (FSTree.dir n cs) f2))
      = walkForest rules root (FSForest.append f1 f2) := by
  match f1 with
  | FSForest.nil => simp [FSForest.append, walkForest, walkTree, h]
  | FSForest.cons t rest =>
    have ih := walk_prunes_ignored_dir rules root rest f2 n cs h
    simp [FSForest.append, walkForest, ih]

theorem walk_prunes_ignored_dir_inst :
    walkForest (compileRules ["build"] []) "proj"
        (FSForest.append FSForest.nil
          (FSForest.cons
            (FSTree.dir "build" (FSForest.ofList [FSTree.file "keep.txt" 1]))
            (FSForest.ofList [FSTree.file "a.py" 2])))
      = walkForest (compileRules ["build"] []) "proj"
          (FSForest.append FSForest.nil
            (FSForest.ofList [FSTree.file "a.py" 2])) :=
  walk_prunes_ignored_dir (compileRules ["build"] []) "proj" FSForest.nil
    (FSForest.ofList [FSTree.file "a.py" 2]) "build"
    (FSForest.ofList [FSTree.file "keep.txt" 1]) (by decide)

/-- Claim C7 (amended): a rule beginning with `/` never matches any file at
all, at any depth: during the walk a file is tested against its bare name,
which contains no `/`, while every alternative compiled from a `/`-prefixed
rule can only fire on a string containing a `/`.  In particular `/root.txt`
ignores neither `root.txt` at the top level nor `sub/root.txt`. -/
theorem anchored_rule_never_matches_basename (r p : String) (t : List Char)
    (hr : r.toList = '/' :: t) (hp : '/' ∉ p.toList) :
    searchMatch r.toList p.toList = false := by
  rw [hr]
  exact searchMatch_slash_head t p.toList hp

theorem anchored_rule_never_matches_basename_inst :
    searchMatch "/root.txt".toList "root.txt".toList = false :=
  anchored_rule_never_matches_basename "/root.txt" "root.txt"
    "root.txt".toList (by decide) (by decide)

/-- Claim C7 counterexample: with the rule `/root.txt`, a FULL scan of a root
containing the top-level file `root.txt` still records it in the snapshot —
the rule does not fire on the bare name `root.txt` — whereas the claim says
the file at the top level is ignored. -/
theorem anchored_rule_misses_toplevel_file :
    walkForest (compileRules ["/root.txt"] []) "proj"
        (FSForest.ofList [FSTree.file "root.txt" 5]) = [("proj/root.txt", 5)] ∧
    ignoresPath (compileRules ["/root.txt"] []) "root.txt" = false := by decide

/-- Claim C8 (amended): blank lines are excluded before compilation
(`filter(None, …)` drops empty strings), so a blank line never changes the
matcher; but comment lines are NOT excluded: a line starting with `#` is
compiled into an ordinary alternative, and a path on which it fires is
ignored on that account. -/
theorem blank_excluded_comment_compiled (cmd git : List String) (p : String) :
    (ignoresPath (compileRules cmd ("" :: git)) p
      = ignoresPath (compileRules cmd git) p) ∧
    (∀ r ∈ git, r.toList.head? = some '#' →
      searchMatch r.toList p.toList = true →
      ignoresPath (compileRules cmd git) p = true) := by
  constructor
  · unfold ignoresPath compileRules
    have hfilter : ((IGNORE ++ cmd ++ ("" :: git)).filter (fun r => r != ""))
        = ((IGNORE ++ cmd ++ git).filter (fun r => r != "")) := by
      simp [List.filter_append]
    rw [hfilter]
  · intro r hrg hpre hfires
    have hne : r ≠ "" := by
      intro e
      subst e
      simp [String.toList] at hpre
    exact (ignoresPath_compileRules_iff cmd git p).mpr
      ⟨r, by simp [hrg], hne, hfires⟩

theorem blank_excluded_comment_compiled_inst :
    ignoresPath (compileRules [] ["#foo"]) "#foo" = true :=
  (blank_excluded_comment_compiled [] ["#foo"] "#foo").2 "#foo"
    (by decide) (by decide) (by decide)

/-- Claim C8 counterexample: the comment line `#foo` IS compiled into an
alternative: with `.gitignore` containing only `#foo`, the path `#foo` is
ignored, while without that line it is not — so a path matching the text of a
comment line is ignored on that account, contrary to the claim. -/
theorem comment_line_becomes_alternative :
    ignoresPath (compileRules [] ["#foo"]) "#foo" = true ∧
    ignoresPath (compileRules [] []) "#foo" = false := by decide

/-- Claim C9: when the configured root path is not an existing directory,
`check_configuration` raises `InvalidFilePath`, which `main` does not catch:
the interpreter reports it and exits with the non-zero code 1 before
`watcher.loop()` is reached; conversely the loop is entered only when the
root is an existing directory. -/
theorem startup_requires_directory (isdir userAgrees deps_ok : Bool)
    (test_program custom_args : String) :
    (isdir = false →
      ∃ c, tdaemon_main isdir test_program custom_args userAgrees deps_ok
          = MainOutcome.exits c ∧ c ≠ 0) ∧
    (tdaemon_main isdir test_program custom_args userAgrees deps_ok
        = MainOutcome.enteredLoop → isdir = true) := by
  constructor
  · intro h
    subst h
    exact ⟨1, by simp [tdaemon_main], by decide⟩
  · intro h
    cases isdir with
    | true => rfl
    | false => simp [tdaemon_main] at h

theorem startup_requires_directory_inst :
    ∃ c, tdaemon_main false "nose" "" true true = MainOutcome.exits c ∧
      c ≠ 0 :=
  (startup_requires_directory false true true "nose" "").1 rfl

/-- Claim C10: `escapearg` returns its argument with every occurrence of each
character of the denylist `#&;`|*?~<>^()[]{}$\` removed and all other
characters preserved in order; consequently its output contains no denylist
character, and it is idempotent. -/
theorem escapearg_spec (s : String) :
    escapearg s
        = (s.toList.filter
            (fun c => !(special_chars.toList.contains c))).asString ∧
    (∀ c ∈ (escapearg s).toList, c ∉ special_chars.toList) ∧
    escapearg (escapearg s) = escapearg s := by
  refine ⟨escapearg_eq_filter s, ?_, ?_⟩
  · intro c hc
    have h1 : (escapearg s).toList
        = s.toList.filter (fun c => !(special_chars.toList.contains c)) :=
      foldl_removeChar_toList special_chars.toList s
    rw [h1, List.mem_filter] at hc
    simpa using hc.2
  · apply string_eq_of_toList_eq
    have h1 : (escapearg s).toList
        = s.toList.filter (fun c => !(special_chars.toList.contains c)) :=
      foldl_removeChar_toList special_chars.toList s
    have h2 : (escapearg (escapearg s)).toList
        = (escapearg s).toList.filter
            (fun c => !(special_chars.toList.contains c)) :=
      foldl_removeChar_toList special_chars.toList (escapearg s)
    rw [h2, h1, List.filter_filter]
    apply List.filter_congr
    intro a _
    simp

theorem escapearg_spec_inst :
    escapearg (escapearg "a#b$c") = escapearg "a#b$c" :=
  (escapearg_spec "a#b$c").2.2

theorem mem_fst_of_mem_changed :
    ∀ (cur prev : Snapshot) (p : String),
      p ∈ (diff_list cur prev).1 → p ∈ cur.map Prod.fst
  | [], _, p, h => by simp [diff_list] at h
  | (key, value) :: rest, prev, p, h => by
    rw [List.map_cons]
    simp only [diff_list] at h
    split at h
    · split at h
      · rcases List.mem_cons.mp h with h | h
        · exact h ▸ List.mem_cons_self _ _
        · exact List.mem_cons_of_mem _ (mem_fst_of_mem_changed rest prev p h)
      · exact List.mem_cons_of_mem _ (mem_fst_of_mem_changed rest prev p h)
    · exact List.mem_cons_of_mem _ (mem_fst_of_mem_changed rest prev p h)

theorem mem_fst_of_mem_new :
    ∀ (cur prev : Snapshot) (p : String),
      p ∈ (diff_list cur prev).2 → p ∈ cur.map Prod.fst
  | [], _, p, h => by simp [diff_list] at h
  | (key, value) :: rest, prev, p, h => by
    rw [List.map_cons]
    simp only [diff_list] at h
    split at h
    · split at h
      · exact List.mem_cons_of_mem _ (mem_fst_of_mem_new rest prev p h)
      · exact List.mem_cons_of_mem _ (mem_fst_of_mem_new rest prev p h)
    · rcases List.mem_cons.mp h with h | h
      · exact h ▸ List.mem_cons_self _ _
      · exact List.mem_cons_of_mem _ (mem_fst_of_mem_new rest prev p h)

theorem mem_diff_cons_ne (key : String) (value : Nat) (rest prev : Snapshot)
    (p : String) (hp : p ≠ key) :
    (p ∈ (diff_list ((key, value) :: rest) prev).1 ↔
      p ∈ (diff_list rest prev).1) ∧
    (p ∈ (diff_list ((key, value) :: rest) prev).2 ↔
      p ∈ (diff_list rest prev).2) := by
  simp only [diff_list]
  cases prev.lookup key with
  | some v2 =>
    by_cases hv : v2 ≠ value
    · simp [hv, List.mem_cons, hp]
    · simp [hv]
  | none => simp [List.mem_cons, hp]

/-- Claim C3: `diff_list(current, previous)` returns as `changed` exactly the
paths present in both snapshots whose modification times differ, and as `new`
exactly the paths present in `current` but absent from `previous`; a deleted
path (present only in `previous`) appears in neither list. -/
theorem diff_list_spec :
    ∀ (cur prev : Snapshot), (cur.map Prod.fst).Nodup → ∀ p : String,
      (p ∈ (diff_list cur prev).1 ↔
        ∃ v v2, cur.lookup p = some v ∧ prev.lookup p = some v2 ∧ v2 ≠ v) ∧
      (p ∈ (diff_list cur prev).2 ↔
        (cur.lookup p).isSome ∧ prev.lookup p = none) ∧
      (cur.lookup p = none →
        p ∉ (diff_list cur prev).1 ∧ p ∉ (diff_list cur prev).2)
  | [], prev, _, p => by simp [diff_list]
  | (key, value) :: rest, prev, hc, p => by
    rw [List.map_cons, List.nodup_cons] at hc
    have ih := diff_list_spec rest prev hc.2 p
    by_cases hp : p = key
    · subst hp
      have hn1 : p ∉ (diff_list rest prev).1 :=
        fun hm => hc.1 (mem_fst_of_mem_changed rest prev p hm)
      have hn2 : p ∉ (diff_list rest prev).2 :=
        fun hm => hc.1 (mem_fst_of_mem_new rest prev p hm)
      have hcur : ((p, value) :: rest).lookup p = some value := by
        simp [List.lookup_cons]
      cases hl : prev.lookup p with
      | some v2 =>
        by_cases hv : v2 ≠ value
        · have hd : diff_list ((p, value) :: rest) prev
              = (p :: (diff_list rest prev).1, (diff_list rest prev).2) := by
            simp only [diff_list]
            rw [hl]
            simp [hv]
          simp [hd, hcur, hl, hn1, hn2, hv]
        · have hveq : v2 = value := not_not.mp hv
          have hd : diff_list ((p, value) :: rest) prev
              = diff_list rest prev := by
            simp only [diff_list]
            rw [hl]
            simp [hveq]
          simp [hd, hcur, hl, hn1, hn2, hveq]
      | none =>
        have hd : diff_list ((p, value) :: rest) prev
            = ((diff_list rest prev).1, p :: (diff_list rest prev).2) := by
          simp only [diff_list]
          rw [hl]
        simp [hd, hcur, hl, hn1, hn2]
    · have hm := mem_diff_cons_ne key value rest prev p hp
      have hbe : (p == key) = false := by simp [hp]
      have hcur : ((key, value) :: rest).lookup p = rest.lookup p := by
        simp [List.lookup_cons, hbe]
      refine ⟨?_, ?_, ?_⟩
      · rw [hm.1, hcur]
        exact ih.1
      · rw [hm.2, hcur]
        exact ih.2.1
      · rw [hcur, hm.1, hm.2]
        exact ih.2.2

theorem diff_list_spec_inst :
    "y" ∈ (diff_list [("x", 150), ("y", 200)] [("x", 100)]).2 := by
  have h :=
    (diff_list_spec [("x", 150), ("y", 200)] [("x", 100)] (by decide) "y").2.1
  exact h.mpr (by decide)

theorem lookup_eq_none_of_not_mem_keys :
    ∀ (l : Snapshot) (k : String), k ∉ l.map Prod.fst → l.lookup k = none
  | [], _, _ => rfl
  | (k2, v2) :: rest, k, h => by
    rw [List.map_cons, List.mem_cons] at h
    push_neg at h
    have hbe : (k == k2) = false := by simp [h.1]
    simp [List.lookup_cons, hbe, lookup_eq_none_of_not_mem_keys rest k h.2]

theorem lookup_eq_some_of_mem_nodup :
    ∀ (l : Snapshot) (k : String) (v : Nat), (l.map Prod.fst).Nodup →
      (k, v) ∈ l → l.lookup k = some v
  | [], _, _, _, hm => absurd hm (List.not_mem_nil _)
  | (k2, v2) :: rest, k, v, hn, hm => by
    rw [List.map_cons, List.nodup_cons] at hn
    rcases List.mem_cons.mp hm with h | h
    · injection h with h1 h2
      subst h1
      subst h2
      simp [List.lookup_cons]
    · have hk : k ≠ k2 := by
        intro e
        have hmem : k ∈ rest.map Prod.fst := List.mem_map.mpr ⟨(k, v), h, rfl⟩
        rw [e] at hmem
        exact hn.1 hmem
      have hbe : (k == k2) = false := by simp [hk]
      simp [List.lookup_cons, hbe,
        lookup_eq_some_of_mem_nodup rest k v hn.2 h]

theorem lookup_dictSet_self :
    ∀ (l : Snapshot) (k : String) (v : Nat), (dictSet l k v).lookup k = some v
  | [], k, v => by simp [dictSet, List.lookup_cons]
  | (k2, v2) :: rest, k, v => by
    by_cases h : k2 = k
    · simp [dictSet, h, List.lookup_cons]
    · have hbe : (k == k2) = false := by simp [Ne.symm h]
      simp [dictSet, h, List.lookup_cons, hbe, lookup_dictSet_self rest k v]

theorem lookup_dictSet_ne :
    ∀ (l : Snapshot) (k p : String) (v : Nat), p ≠ k →
      (dictSet l k v).lookup p = l.lookup p
  | [], k, p, v, h => by
    have hbe : (p == k) = false := by simp [h]
    simp [dictSet, List.lookup_cons, hbe]
  | (k2, v2) :: rest, k, p, v, h => by
    by_cases h2 : k2 = k
    · subst h2
      have hbe : (p == k2) = false := by simp [h]
      simp [dictSet, List.lookup_cons, hbe]
    · simp [dictSet, h2, List.lookup_cons, lookup_dictSet_ne rest k p v h]

theorem lookup_dictPop_self :
    ∀ (l : Snapshot) (k : String), (l.map Prod.fst).Nodup →
      (dictPop l k).lookup k = none
  | [], _, _ => rfl
  | (k2, v2) :: rest, k, hn => by
    rw [List.map_cons, List.nodup_cons] at hn
    by_cases h : k2 = k
    · subst h
      rw [show dictPop ((k2, v2) :: rest) k2 = rest from by simp [dictPop]]
      exact lookup_eq_none_of_not_mem_keys rest k2 hn.1
    · have hbe : (k == k2) = false := by simp [Ne.symm h]
      simp [dictPop, h, List.lookup_cons, hbe, lookup_dictPop_self rest k hn.2]

theorem lookup_dictPop_ne :
    ∀ (l : Snapshot) (k p : String), p ≠ k →
      (dictPop l k).lookup p = l.lookup p
  | [], _, _, _ => rfl
  | (k2, v2) :: rest, k, p, h => by
    by_cases h2 : k2 = k
    · subst h2
      have hbe : (p == k2) = false := by simp [h]
      simp [dictPop, List.lookup_cons, hbe]
    · simp [dictPop, h2, List.lookup_cons, lookup_dictPop_ne rest k p h]

theorem mem_keys_dictSet :
    ∀ (l : Snapshot) (k : String) (v : Nat) (q : String),
      q ∈ (dictSet l k v).map Prod.fst → q ∈ l.map Prod.fst ∨ q = k
  | [], k, v, q, h => by
    simp [dictSet] at h
    exact Or.inr h
  | (k2, v2) :: rest, k, v, q, h => by
    by_cases hk : k2 = k
    · rw [show dictSet ((k2, v2) :: rest) k v = (k, v) :: rest from by
        simp [dictSet, hk]] at h
      rw [List.map_cons, List.mem_cons] at h
      rcases h with h2 | h2
      · exact Or.inr h2
      · exact Or.inl (by simp [h2])
    · rw [show dictSet ((k2, v2) :: rest) k v = (k2, v2) :: dictSet rest k v
        from by simp [dictSet, hk]] at h
      rw [List.map_cons, List.mem_cons] at h
      rcases h with h2 | h2
      · exact Or.inl (by simp [h2])
      · rcases mem_keys_dictSet rest k v q h2 with h3 | h3
        · exact Or.inl (by simp [h3])
        · exact Or.inr h3

theorem mem_keys_dictPop :
    ∀ (l : Snapshot) (k q : String),
      q ∈ (dictPop l k).map Prod.fst → q ∈ l.map Prod.fst
  | [], _, _, h => by simp [dictPop] at h
  | (k2, v2) :: rest, k, q, h => by
    by_cases hk : k2 = k
    · rw [show dictPop ((k2, v2) :: rest) k = rest from by
        simp [dictPop, hk]] at h
      rw [List.map_cons]
      exact List.mem_cons_of_mem _ h
    · rw [show dictPop ((k2, v2) :: rest) k = (k2, v2) :: dictPop rest k
        from by simp [dictPop, hk]] at h
      rw [List.map_cons, List.mem_cons] at h
      rw [List.map_cons, List.mem_cons]
      rcases h with h2 | h2
      · exact Or.inl h2
      · exact Or.inr (mem_keys_dictPop rest k q h2)

theorem keys_nodup_dictSet :
    ∀ (l : Snapshot) (k : String) (v : Nat), (l.map Prod.fst).Nodup →
      ((dictSet l k v).map Prod.fst).Nodup
  | [], k, v, _ => by simp [dictSet]
  | (k2, v2) :: rest, k, v, hn => by
    rw [List.map_cons, List.nodup_cons] at hn
    by_cases h : k2 = k
    · subst h
      rw [show dictSet ((k2, v2) :: rest) k2 v = (k2, v) :: rest from by
        simp [dictSet]]
      rw [List.map_cons, List.nodup_cons]
      exact hn
    · rw [show dictSet ((k2, v2) :: rest) k v = (k2, v2) :: dictSet rest k v
        from by simp [dictSet, h]]
      rw [List.map_cons, List.nodup_cons]
      refine ⟨?_, keys_nodup_dictSet rest k v hn.2⟩
      intro hmem
      rcases mem_keys_dictSet rest k v k2 hmem with hh | hh
      · exact hn.1 hh
      · exact h hh

theorem keys_nodup_dictPop :
    ∀ (l : Snapshot) (k : String), (l.map Prod.fst).Nodup →
      ((dictPop l k).map Prod.fst).Nodup
  | [], _, _ => by simp [dictPop]
  | (k2, v2) :: rest, k, hn => by
    rw [List.map_cons, List.nodup_cons] at hn
    by_cases h : k2 = k
    · rw [show dictPop ((k2, v2) :: rest) k = rest from by simp [dictPop, h]]
      exact hn.2
    · rw [show dictPop ((k2, v2) :: rest) k = (k2, v2) :: dictPop rest k
        from by simp [dictPop, h]]
      rw [List.map_cons, List.nodup_cons]
      exact ⟨fun hmem => hn.1 (mem_keys_dictPop rest k k2 hmem),
        keys_nodup_dictPop rest k hn.2⟩

/-- Claim C4: a quick (PARTIAL) scan checks only the hot paths: every hot
path that is still a regular file ends up mapped to its current modification
time, every hot path that no longer is a regular file is absent from the
result, and every path not in the hot set keeps exactly the binding it had in
the prior full snapshot. -/
theorem quickWalk_spec (isfile : String → Bool) (getmtime : String → Nat) :
    ∀ (hot : List String) (prev : Snapshot), (prev.map Prod.fst).Nodup →
      ∀ p : String,
      (p ∈ hot → (quickWalk isfile getmtime prev hot).lookup p
          = if isfile p then some (getmtime p) else none) ∧
      (p ∉ hot → (quickWalk isfile getmtime prev hot).lookup p = prev.lookup p)
  | [], _, _, p => ⟨fun h => absurd h (List.not_mem_nil p), fun _ => rfl⟩
  | f :: hot, prev, hp, p => by
    have hstep : quickWalk isfile getmtime prev (f :: hot)
        = quickWalk isfile getmtime
            (if isfile f then dictSet prev f (getmtime f) else dictPop prev f)
            hot := rfl
    have hnodup2 : (((if isfile f then dictSet prev f (getmtime f)
        else dictPop prev f)).map Prod.fst).Nodup := by
      by_cases hf : isfile f
      · rw [if_pos hf]
        exact keys_nodup_dictSet prev f (getmtime f) hp
      · rw [if_neg hf]
        exact keys_nodup_dictPop prev f hp
    have ih := quickWalk_spec isfile getmtime hot
      (if isfile f then dictSet prev f (getmtime f) else dictPop prev f)
      hnodup2 p
    constructor
    · intro hmem
      by_cases hr : p ∈ hot
      · rw [hstep]
        exact ih.1 hr
      · have hpf : p = f := by
          rcases List.mem_cons.mp hmem with h | h
          · exact h
          · exact absurd h hr
        subst hpf
        rw [hstep, ih.2 hr]
        by_cases hf : isfile p
        · rw [if_pos hf, if_pos hf]
          exact lookup_dictSet_self prev p (getmtime p)
        · rw [if_neg hf, if_neg hf]
          exact lookup_dictPop_self prev p hp
    · intro hmem
      have hpf : p ≠ f := fun e => hmem (e ▸ List.mem_cons_self f hot)
      have hr : p ∉ hot := fun h => hmem (List.mem_cons_of_mem f h)
      rw [hstep, ih.2 hr]
      by_cases hf : isfile f
      · rw [if_pos hf]
        exact lookup_dictSet_ne prev f p (getmtime f) hpf
      · rw [if_neg hf]
        exact lookup_dictPop_ne prev f p hpf

theorem quickWalk_spec_inst :
    (quickWalk (fun s => s == "c") (fun _ => 9) [("a", 1), ("b", 2)]
        ["b", "c"]).lookup "b" = none := by
  have h := (quickWalk_spec (fun s => s == "c") (fun _ => 9) ["b", "c"]
    [("a", 1), ("b", 2)] (by decide) "b").1 (by decide)
  simpa using h

theorem dictEqSnap_of_lookup_eq {l1 l2 : Snapshot}
    (h1 : (l1.map Prod.fst).Nodup) (h2 : (l2.map Prod.fst).Nodup)
    (h : ∀ k, l1.lookup k = l2.lookup k) : dictEqSnap l1 l2 = true := by
  unfold dictEqSnap
  rw [Bool.and_eq_true, List.all_eq_true, List.all_eq_true]
  constructor
  · rintro ⟨k, v⟩ hm
    have hv : l1.lookup k = some v := lookup_eq_some_of_mem_nodup l1 k v h1 hm
    simp [← h k, hv]
  · rintro ⟨k, v⟩ hm
    have hv : l2.lookup k = some v := lookup_eq_some_of_mem_nodup l2 k v h2 hm
    simp [h k, hv]

/-- Claim C5: on a loop tick whose fresh snapshot is equal to the stored one
(identical key sets and identical modification times at every key, i.e. equal
as maps), the tick runs no tests and leaves both the stored snapshot and the
hot cache untouched. -/
theorem tick_unchanged (st : LoopState) (new_file_list : Snapshot)
    (h1 : (new_file_list.map Prod.fst).Nodup)
    (h2 : (st.file_list.map Prod.fst).Nodup)
    (h : ∀ k, new_file_list.lookup k = st.file_list.lookup k) :
    tick st new_file_list = (st, false) := by
  unfold tick
  rw [dictEqSnap_of_lookup_eq h1 h2 h]
  simp

theorem tick_unchanged_inst :
    tick ⟨[("a", 1), ("b", 2)], [("c", 3)]⟩ [("b", 2), ("a", 1)]
      = (⟨[("a", 1), ("b", 2)], [("c", 3)]⟩, false) := by
  apply tick_unchanged ⟨[("a", 1), ("b", 2)], [("c", 3)]⟩ [("b", 2), ("a", 1)]
    (by decide) (by decide)
  intro k
  by_cases ha : k = "a"
  · simp [List.lookup_cons, ha]
  · by_cases hb : k = "b"
    · simp [List.lookup_cons, hb]
    · have hba : (k == "a") = false := by simp [ha]
      have hbb : (k == "b") = false := by simp [hb]
      simp [List.lookup_cons, hba, hbb]

theorem mem_keys_hotBump :
    ∀ (l : List (String × Nat)) (f q : String),
      q ∈ (hotBump l f).map Prod.fst → q ∈ l.map Prod.fst ∨ q = f
  | [], f, q, h => by
    simp [hotBump] at h
    exact Or.inr h
  | (k, c) :: rest, f, q, h => by
    by_cases hk : k = f
    · rw [show hotBump ((k, c) :: rest) f = (k, c + 1) :: rest from by
        simp [hotBump, hk]] at h
      rw [List.map_cons, List.mem_cons] at h
      rcases h with h2 | h2
      · exact Or.inl (by simp [h2])
      · exact Or.inl (by simp [h2])
    · rw [show hotBump ((k, c) :: rest) f = (k, c) :: hotBump rest f from by
        simp [hotBump, hk]] at h
      rw [List.map_cons, List.mem_cons] at h
      rcases h with h2 | h2
      · exact Or.inl (by simp [h2])
      · rcases mem_keys_hotBump rest f q h2 with h3 | h3
        · exact Or.inl (by simp [h3])
        · exact Or.inr h3

theorem keys_nodup_hotBump :
    ∀ (l : List (String × Nat)) (f : String), (l.map Prod.fst).Nodup →
      ((hotBump l f).map Prod.fst).Nodup
  | [], _, _ => by simp [hotBump]
  | (k, c) :: rest, f, hn => by
    rw [List.map_cons, List.nodup_cons] at hn
    by_cases hk : k = f
    · rw [show hotBump ((k, c) :: rest) f = (k, c + 1) :: rest from by
        simp [hotBump, hk]]
      rw [List.map_cons, List.nodup_cons]
      exact hn
    · rw [show hotBump ((k, c) :: rest) f = (k, c) :: hotBump rest f from by
        simp [hotBump, hk]]
      rw [List.map_cons, List.nodup_cons]
      refine ⟨?_, keys_nodup_hotBump rest f hn.2⟩
      intro hmem
      rcases mem_keys_hotBump rest f k hmem with h | h
      · exact hn.1 h
      · exact hk h

theorem keys_nodup_hotIncrement :
    ∀ (files : List String) (hot : List (String × Nat)),
      (hot.map Prod.fst).Nodup →
      ((hotIncrement hot files).map Prod.fst).Nodup
  | [], _, hn => hn
  | f :: files, hot, hn =>
    keys_nodup_hotIncrement files (hotBump hot f) (keys_nodup_hotBump hot f hn)

/-- Claim C6: after a hot-cache update the cache holds at most its fixed
capacity of 20 entries; every retained entry's count is at least every
evicted entry's count (the evicted entries being those the truncation drops
from the descending-sorted list); some entry of maximal count is always
retained; and when the capacity is exceeded, an entry whose count is strictly
below every other entry's count is evicted.  Keys are assumed distinct, as
they are for the Python dict `hot_top`. -/
theorem hotUpdate_spec (hot : List (String × Nat)) (files : List String)
    (hk : (hot.map Prod.fst).Nodup) :
    (hotUpdate hot files).length ≤ 20 ∧
    (∀ a ∈ hotUpdate hot files,
      ∀ b ∈ ((hotIncrement hot files).insertionSort hotRel).drop
        hot_top_limit, b.2 ≤ a.2) ∧
    (hotIncrement hot files ≠ [] →
      ∃ a ∈ hotUpdate hot files,
        ∀ b ∈ hotIncrement hot files, b.2 ≤ a.2) ∧
    (∀ e ∈ hotIncrement hot files,
      hot_top_limit < (hotIncrement hot files).length →
      (∀ b ∈ hotIncrement hot files, b ≠ e → e.2 < b.2) →
      e ∉ hotUpdate hot files) := by
  have hperm : List.Perm ((hotIncrement hot files).insertionSort hotRel)
      (hotIncrement hot files) :=
    List.perm_insertionSort hotRel (hotIncrement hot files)
  have hsorted : List.Pairwise hotRel
      ((hotIncrement hot files).insertionSort hotRel) :=
    List.sorted_insertionSort hotRel (hotIncrement hot files)
  have hpair := List.pairwise_append.mp
    (by
      rw [List.take_append_drop hot_top_limit
        ((hotIncrement hot files).insertionSort hotRel)]
      exact hsorted)
  have hmain : ∀ a ∈ hotUpdate hot files,
      ∀ b ∈ ((hotIncrement hot files).insertionSort hotRel).drop
        hot_top_limit, b.2 ≤ a.2 := by
    intro a ha b hb
    exact hpair.2.2 a ha b hb
  refine ⟨?_, hmain, ?_, ?_⟩
  · exact List.length_take_le hot_top_limit _
  · intro hne
    have hsne : (hotIncrement hot files).insertionSort hotRel ≠ [] := by
      intro e
      apply hne
      have hlen := hperm.length_eq
      rw [e] at hlen
      have h0 : (hotIncrement hot files).length = 0 := by
        simpa using hlen.symm
      exact List.eq_nil_of_length_eq_zero h0
    obtain ⟨a, t, hst⟩ := List.exists_cons_of_ne_nil hsne
    refine ⟨a, ?_, ?_⟩
    · show a ∈ ((hotIncrement hot files).insertionSort hotRel).take
        hot_top_limit
      rw [hst]
      have htake : List.take hot_top_limit (a :: t)
          = a :: List.take 19 t := rfl
      rw [htake]
      exact List.mem_cons_self a _
    · intro b hb
      have hbs : b ∈ (hotIncrement hot files).insertionSort hotRel :=
        hperm.mem_iff.mpr hb
      rw [hst] at hbs
      rcases List.mem_cons.mp hbs with h2 | h2
      · exact h2 ▸ Nat.le_refl _
      · have hrel : hotRel a b := (List.pairwise_cons.mp (hst ▸ hsorted)).1 b h2
        exact hrel
  · intro e he hlen hmin hmem
    have hnodup : ((hotIncrement hot files).insertionSort hotRel).Nodup := by
      have hkeys := keys_nodup_hotIncrement files hot hk
      have hinc : (hotIncrement hot files).Nodup :=
        List.Nodup.of_map Prod.fst hkeys
      exact hperm.nodup_iff.mpr hinc
    have hdroplen : 0 < (((hotIncrement hot files).insertionSort
        hotRel).drop hot_top_limit).length := by
      rw [List.length_drop, hperm.length_eq]
      omega
    obtain ⟨b, hb⟩ := List.exists_mem_of_ne_nil
      (((hotIncrement hot files).insertionSort hotRel).drop hot_top_limit)
      (by
        intro e2
        rw [e2] at hdroplen
        simp at hdroplen)
    have hbne : b ≠ e := by
      intro e2
      subst e2
      exact (List.disjoint_take_drop hnodup
        (Nat.le_refl hot_top_limit)) hmem hb
    have hble : b.2 ≤ e.2 := hmain e hmem b hb
    have hbin : b ∈ hotIncrement hot files :=
      hperm.mem_iff.mp (List.mem_of_mem_drop hb)
    exact absurd (hmin b hbin hbne) (Nat.not_lt.mpr hble)

theorem hotUpdate_spec_inst :
    ∃ a ∈ hotUpdate [("a", 2)] ["b"],
      ∀ b ∈ hotIncrement [("a", 2)] ["b"], b.2 ≤ a.2 :=
  (hotUpdate_spec [("a", 2)] ["b"] (by decide)).2.2.1 (by decide)

end TDaemon
